import Mathlib

/-!
Verification of the Mercury odds-aggregation pipeline.

This file shallowly embeds the parts of the Mercury source that the
claims concern: the delta-detection engine (internal/delta/engine.go),
the transactional writer (internal/writer/writer.go), the lifecycle
status updater (internal/closer/status_updater.go), the closing-line
capturer (internal/closer), and the vendor HTTP client retry loop
(adapters/theoddsapi/client.go).

Machine integers and timestamps are modelled as Int (seconds), the
float64 `point` values as rationals, and the Postgres tables as lists
of rows.  Definitions translate the Go source; definitions whose name
ends in `Spec` restate a sentence of the natural-language spec and are
compared against the source-derived definitions.
-/

/-- A raw odds quote (pkg/models RawOdds).  `point` is optional (present
for handicap and total markets); timestamps are seconds. -/
structure RawOdds where
  eventID : String
  sportKey : String
  marketKey : String
  bookKey : String
  outcomeName : String
  price : Int
  point : Option ℚ
  vendorLastUpdate : Int
  receivedAt : Int
deriving DecidableEq, Repr

/-- A sporting event (pkg/models Event). -/
structure Event where
  eventID : String
  sportKey : String
  homeTeam : String
  awayTeam : String
  commenceTime : Int
  eventStatus : String
deriving DecidableEq, Repr

/-- The cached projection of a quote stored in Redis
(delta.CachedOdd). -/
structure CachedOdd where
  price : Int
  point : Option ℚ
  vendorLastUpdate : Int
deriving DecidableEq, Repr

/-- What an MGet returns for one key: no entry, an entry that is not a
decodable CachedOdd (a non-string value or invalid JSON), or a decoded
entry. -/
inductive CacheEntry where
  | absent
  | corrupt
  | value (c : CachedOdd)
deriving DecidableEq, Repr

/-- Change classification (delta.ChangeType). -/
inductive ChangeType where
  | new
  | priceOnly
  | pointOnly
  | both
  | none
deriving DecidableEq, Repr

/-- A detected change (delta.Delta). -/
structure Delta where
  odd : RawOdds
  changeType : ChangeType
  oldPrice : Option Int
  oldPoint : Option ℚ
deriving DecidableEq, Repr

/-- Redis key for an odd (Engine.buildKey):
odds:current:eventID:marketKey:bookKey:outcomeName. -/
def buildKey (odd : RawOdds) : String :=
  "odds:current:" ++ odd.eventID ++ ":" ++ odd.marketKey ++ ":"
    ++ odd.bookKey ++ ":" ++ odd.outcomeName

/-- Engine.pointChanged: both nil is unchanged, nil vs non-nil changed,
otherwise changed iff the absolute difference exceeds epsilon 0.001. -/
def pointChanged (newPoint oldPoint : Option ℚ) : Bool :=
  match newPoint, oldPoint with
  | Option.none, Option.none => false
  | Option.none, some _ => true
  | some _, Option.none => true
  | some np, some op =>
      let diff := np - op
      let adiff := if diff < 0 then -diff else diff
      decide (adiff > 1/1000)

/-- Engine.compareOdd: classification plus the old price and point taken
from the cached entry. -/
def compareOdd (newOdd : RawOdds) (cachedValue : CacheEntry) :
    ChangeType × Option Int × Option ℚ :=
  match cachedValue with
  | CacheEntry.absent => (ChangeType.new, Option.none, Option.none)
  | CacheEntry.corrupt => (ChangeType.new, Option.none, Option.none)
  | CacheEntry.value cached =>
    let priceChanged : Bool := decide (newOdd.price ≠ cached.price)
    let ptChanged : Bool := pointChanged newOdd.point cached.point
    if !priceChanged && !ptChanged then
      (ChangeType.none, Option.none, Option.none)
    else
      let oldPrice : Option Int := some cached.price
      let oldPoint : Option ℚ := cached.point
      if priceChanged && ptChanged then (ChangeType.both, oldPrice, oldPoint)
      else if priceChanged then (ChangeType.priceOnly, oldPrice, oldPoint)
      else (ChangeType.pointOnly, oldPrice, oldPoint)

/-- The cache as seen through MGet: one CacheEntry per key. -/
def Cache : Type := String → CacheEntry

/-- Engine.DetectChanges: classify every quote in input order against
its cached value and keep exactly the quotes whose change type is not
none, wrapped as Deltas. -/
def detectChanges (cache : Cache) (newOdds : List RawOdds) : List Delta :=
  newOdds.filterMap fun odd =>
    match compareOdd odd (cache (buildKey odd)) with
    | (ChangeType.none, _, _) => Option.none
    | (ct, op, opt) => some (Delta.mk odd ct op opt)

/-- The cached-quote projection written by UpdateCache. -/
def encodeCached (odd : RawOdds) : CachedOdd :=
  CachedOdd.mk odd.price odd.point odd.vendorLastUpdate

/-- One pipelined SET of UpdateCache. -/
def setCached (cache : Cache) (odd : RawOdds) : Cache :=
  fun k => if k = buildKey odd then CacheEntry.value (encodeCached odd) else cache k

/-- Engine.UpdateCache: pipeline-write every quote's projection under
its key, in input order (a later SET on the same key wins). -/
def updateCache (cache : Cache) (odds : List RawOdds) : Cache :=
  odds.foldl setCached cache

/-- The EU-exclusive book keys (writer.isEUOnlyBook's map). -/
def euOnlyBooks : List String :=
  ["pinnacle", "betfair_ex_eu", "matchbook", "marathonbet", "betsson",
   "coolbet", "nordicbet", "unibet_se", "unibet_fr", "unibet_it",
   "unibet_nl", "leovegas_se", "tipico_de", "winamax_fr", "winamax_de",
   "betclic_fr", "parionssport_fr", "suprabets", "onexbet"]

/-- writer.isEUOnlyBook. -/
def isEUOnlyBook (bookKey : String) : Bool :=
  euOnlyBooks.contains bookKey

/-- The EU books the writer accepts (writer.filterEUBooks's
allowedEUBooks map, currently only pinnacle). -/
def allowedEUBooks : List String := ["pinnacle"]

/-- ASCII lowercasing, the effect of strings.ToLower on the ASCII book
keys. -/
def lowerString (s : String) : String :=
  String.mk (s.data.map Char.toLower)

/-- writer.filterEUBooks: lowercase the book key; a quote from an
EU-only book is kept only when that book is in the allowed list, any
other quote is kept. -/
def filterEUBooks (odds : List RawOdds) : List RawOdds :=
  odds.filter fun odd =>
    let bookKey := lowerString odd.bookKey
    if isEUOnlyBook bookKey then allowedEUBooks.contains bookKey
    else true

/-- The natural identity of a quote. -/
def identityOf (o : RawOdds) : String × String × String × String :=
  (o.eventID, o.marketKey, o.bookKey, o.outcomeName)

/-- One odds_raw row: the inserted quote fields plus the is_latest
flag. -/
structure OddsRow where
  odd : RawOdds
  isLatest : Bool
deriving DecidableEq, Repr

/-- writer.updatePreviousOdds: set is_latest to false on every row that
is currently latest and whose identity matches some quote of the
batch. -/
def updatePreviousOdds (archive : List OddsRow) (odds : List RawOdds) :
    List OddsRow :=
  archive.map fun row =>
    if row.isLatest ∧ odds.any (fun o => identityOf o = identityOf row.odd) then
      OddsRow.mk row.odd false
    else row

/-- writer.insertNewOdds: append one row per quote with is_latest
true. -/
def insertNewOdds (archive : List OddsRow) (odds : List RawOdds) :
    List OddsRow :=
  archive ++ odds.map (fun o => OddsRow.mk o true)

/-- writer.upsertEventsFromList for a single event: insert by event_id,
on conflict update home_team, away_team, commence_time and status. -/
def upsertEvent (tbl : List Event) (e : Event) : List Event :=
  if tbl.any (fun r => r.eventID = e.eventID) then
    tbl.map fun r =>
      if r.eventID = e.eventID then
        Event.mk r.eventID r.sportKey e.homeTeam e.awayTeam
          e.commenceTime e.eventStatus
      else r
  else tbl ++ [e]

/-- writer.upsertEventsFromList over the batch. -/
def upsertEventsFromList (tbl : List Event) (events : List Event) :
    List Event :=
  events.foldl upsertEvent tbl

/-- writer.upsertBooksFromOdds: insert each distinct book key of the
batch, on conflict do nothing (modelled as insert-if-absent of the
key). -/
def upsertBooksFromOdds (books : List String) (odds : List RawOdds) :
    List String :=
  odds.foldl
    (fun bs o => if bs.contains o.bookKey then bs else bs ++ [o.bookKey])
    books

/-- writer.identifyNewEvents: walk the batch, and for each event whose
id is not yet in the seen set, mark it seen and collect it; returns the
collected new events and the grown seen set. -/
def identifyNewEvents (seen : List String) (events : List Event) :
    List Event × List String :=
  events.foldl
    (fun acc evt =>
      if evt.eventID ∈ acc.2 then acc
      else (acc.1 ++ [evt], evt.eventID :: acc.2))
    ([], seen)

/-- writer.warmGamePages candidate filter: keep events whose status is
empty or upcoming, whose commence time is not in the past, and not
beyond the 72-hour warm window. -/
def warmCandidates (now : Int) (events : List Event) : List Event :=
  events.filter fun evt =>
    (evt.eventStatus = "" ∨ evt.eventStatus = "upcoming") ∧
      ¬ evt.commenceTime < now ∧ ¬ evt.commenceTime > now + 72 * 3600

/-- The writer-visible state: the archive tables, the stream already
published, the page-warm requests issued, the seen-events set, and the
number of transactions that have been opened. -/
structure WriterState where
  archive : List OddsRow
  eventsTable : List Event
  books : List String
  published : List RawOdds
  warms : List Event
  seenEvents : List String
  txBegun : Nat
deriving DecidableEq, Repr

/-- Result of a writer call. -/
inductive WriteResult where
  | ok
  | error (msg : String)
deriving DecidableEq, Repr

/-- writer.WriteWithEvents.  `dbOk` abstracts whether the database
transaction (begin, the four statements, commit) succeeds; `talosOn`
abstracts whether the Talos page-warm client is enabled.  Both-empty
input returns immediately.  Otherwise the batch is EU-filtered, new
events are marked seen (before the transaction), and on success the
events, books and odds statements are applied and the filtered odds are
published; on failure the transaction is rolled back and the error is
returned, with no publish and no page warm -- but the seen-events
marking is not reverted. -/
def writeWithEvents (now : Int) (talosOn : Bool) (s : WriterState)
    (events : List Event) (odds : List RawOdds) (dbOk : Bool) :
    WriteResult × WriterState :=
  if events = [] ∧ odds = [] then (WriteResult.ok, s)
  else
    let fodds := filterEUBooks odds
    let marked := identifyNewEvents s.seenEvents events
    if dbOk then
      let archive1 := insertNewOdds (updatePreviousOdds s.archive fodds) fodds
      let warmed := if talosOn then warmCandidates now marked.1 else []
      (WriteResult.ok,
       WriterState.mk archive1
         (upsertEventsFromList s.eventsTable events)
         (upsertBooksFromOdds s.books fodds)
         (s.published ++ fodds)
         (s.warms ++ warmed)
         marked.2
         (s.txBegun + 1))
    else
      (WriteResult.error "transaction failed",
       WriterState.mk s.archive s.eventsTable s.books s.published s.warms
         marked.2 (s.txBegun + 1))

/-- One call in a history of WriteWithEvents calls. -/
structure WCall where
  now : Int
  talosOn : Bool
  events : List Event
  odds : List RawOdds
  dbOk : Bool

/-- Run a history of WriteWithEvents calls from a starting state. -/
def runCalls (s : WriterState) (calls : List WCall) : WriterState :=
  calls.foldl
    (fun st c => (writeWithEvents c.now c.talosOn st c.events c.odds c.dbOk).2)
    s

/-- The writer state at process start: everything empty. -/
def initialWriterState : WriterState :=
  WriterState.mk [] [] [] [] [] [] 0

/-- An events-table row as the status updater sees it. -/
structure LEvent where
  eventID : String
  sportKey : String
  homeTeam : String
  awayTeam : String
  commenceTime : Int
  status : String
deriving DecidableEq, Repr

/-- The upcoming-to-live UPDATE of closer.updateStatuses applied to one
row: events whose status is upcoming and whose commence time is at most
now and strictly later than now minus 5 minutes become live. -/
def toLiveStep (now : Int) (e : LEvent) : LEvent :=
  if e.status = "upcoming" ∧ e.commenceTime ≤ now ∧
      e.commenceTime > now - 300 then
    LEvent.mk e.eventID e.sportKey e.homeTeam e.awayTeam e.commenceTime "live"
  else e

/-- The live-to-completed UPDATE of closer.updateStatuses applied to one
row: events whose status is live and whose commence time is strictly
older than 3 hours become completed. -/
def toCompletedStep (now : Int) (e : LEvent) : LEvent :=
  if e.status = "live" ∧ e.commenceTime < now - 3 * 3600 then
    LEvent.mk e.eventID e.sportKey e.homeTeam e.awayTeam e.commenceTime
      "completed"
  else e

/-- closer.updateStatuses: one tick runs the upcoming-to-live UPDATE
over the whole table, then the live-to-completed UPDATE over the
result. -/
def updateStatuses (now : Int) (events : List LEvent) : List LEvent :=
  (events.map (toLiveStep now)).map (toCompletedStep now)

/-- Repeated ticks of the status updater at the given tick times. -/
def runStatusTicks (ticks : List Int) (events : List LEvent) :
    List LEvent :=
  ticks.foldl (fun evs t => updateStatuses t evs) events

/-- A closing_lines row: the composite key fields (point is the
coalesced value, absent stored as 0) plus closing price and capture
time. -/
structure ClosingRow where
  eventID : String
  sportKey : String
  marketKey : String
  bookKey : String
  outcomeName : String
  closingPrice : Int
  point : ℚ
  closedAt : Int
deriving DecidableEq, Repr

/-- Conflict test on the closing_lines primary key
(event_id, market_key, book_key, outcome_name, point). -/
def closingKeyEq (a b : ClosingRow) : Bool :=
  a.eventID = b.eventID ∧ a.marketKey = b.marketKey ∧
    a.bookKey = b.bookKey ∧ a.outcomeName = b.outcomeName ∧ a.point = b.point

/-- ON CONFLICT DO NOTHING: insert the row unless a row with the same
composite key is already present. -/
def insertClosingRow (tbl : List ClosingRow) (r : ClosingRow) :
    List ClosingRow :=
  if tbl.any (fun x => closingKeyEq x r) then tbl else tbl ++ [r]

/-- The SELECT feeding closer.captureEventClosingLines: the current
odds_raw rows of the event, projected to closing rows with the point
coalesced to 0 and closed_at set to now. -/
def closingRowsFor (now : Int) (archive : List OddsRow) (eventID : String) :
    List ClosingRow :=
  (archive.filter fun r => r.odd.eventID = eventID ∧ r.isLatest).map fun r =>
    ClosingRow.mk r.odd.eventID r.odd.sportKey r.odd.marketKey r.odd.bookKey
      r.odd.outcomeName r.odd.price
      (match r.odd.point with | some p => p | Option.none => 0) now

/-- closer.captureEventClosingLines: insert the event's current quotes
into closing_lines, ignoring composite-key conflicts row by row. -/
def captureEventClosingLines (now : Int) (archive : List OddsRow)
    (tbl : List ClosingRow) (eventID : String) : List ClosingRow :=
  (closingRowsFor now archive eventID).foldl insertClosingRow tbl

/-- The selection query of closer.captureClosingLines: live events whose
commence time lies within 5 minutes of now on either side and for which
no closing-lines row exists. -/
def closingCandidates (now : Int) (events : List LEvent)
    (tbl : List ClosingRow) : List LEvent :=
  events.filter fun e =>
    e.status = "live" ∧
      now - 300 ≤ e.commenceTime ∧ e.commenceTime ≤ now + 300 ∧
      ¬ tbl.any (fun r => r.eventID = e.eventID)

/-- The state the capturer reads and writes. -/
structure CaptureState where
  events : List LEvent
  archive : List OddsRow
  closing : List ClosingRow
deriving DecidableEq, Repr

/-- closer.captureClosingLines: one tick of the capture loop -- select
the candidate events once, then capture each one's closing lines in
turn.  Events and odds are not modified. -/
def captureClosingLines (now : Int) (s : CaptureState) : CaptureState :=
  CaptureState.mk s.events s.archive
    ((closingCandidates now s.events s.closing).foldl
      (fun tbl e => captureEventClosingLines now s.archive tbl e.eventID)
      s.closing)

/-- Outcome of one HTTP attempt of the vendor client (theoddsapi
doRequest): success with a body, a non-200 status, or a transport
error. -/
inductive AttemptResult where
  | ok (body : String)
  | httpErr (status : Nat) (msg : String)
  | netErr (msg : String)
deriving DecidableEq, Repr

/-- Final outcome of doRequestWithRetry. -/
inductive ReqResult where
  | success (body : String)
  | failure (msg : String)
deriving DecidableEq, Repr

/-- The non-retryable test of doRequestWithRetry: a 4xx status other
than 429. -/
def nonRetryable : AttemptResult → Bool
  | AttemptResult.httpErr status _ =>
      decide (400 ≤ status ∧ status < 500 ∧ status ≠ 429)
  | _ => false

/-- What doRequestWithRetry did: remaining attempt budget consumed into
the backoff delays actually slept (seconds), the number of attempts
made, and the result. -/
structure RetryTrace where
  delays : List Nat
  attemptsMade : Nat
  result : ReqResult
deriving DecidableEq, Repr

/-- The backoff slept before an attempt: nothing before the first,
retryDelay times 2 to the power (attempt-1) before the others, with
retryDelay 2 seconds. -/
def preDelay (attempt : Nat) : List Nat :=
  if attempt > 0 then [2 * 2 ^ (attempt - 1)] else []

/-- The loop body of doRequestWithRetry: `attempt` is the current
attempt index, `remaining` the attempts still allowed.  A success
returns the body, a non-retryable error returns immediately, any other
error is retried until the budget is exhausted. -/
def retryGo (attempts : Nat → AttemptResult) (attempt : Nat) :
    Nat → RetryTrace
  | 0 => RetryTrace.mk [] 0 (ReqResult.failure "max retries exceeded")
  | remaining + 1 =>
    match attempts attempt with
    | AttemptResult.ok body =>
        RetryTrace.mk (preDelay attempt) 1 (ReqResult.success body)
    | e =>
      if nonRetryable e then
        RetryTrace.mk (preDelay attempt) 1 (ReqResult.failure "client error")
      else
        RetryTrace.mk
          (preDelay attempt ++ (retryGo attempts (attempt + 1) remaining).delays)
          (1 + (retryGo attempts (attempt + 1) remaining).attemptsMade)
          (retryGo attempts (attempt + 1) remaining).result

/-- theoddsapi doRequestWithRetry with maxRetries 3: at most three
attempts, starting at attempt index 0. -/
def doRequestWithRetry (attempts : Nat → AttemptResult) : RetryTrace :=
  retryGo attempts 0 3

/-- Spec-side keep predicate for the book filter, from the spec's words:
a quote is kept iff its book key is not on the European-only list or it
is pinnacle. -/
def keepBookSpec (o : RawOdds) : Bool :=
  !(isEUOnlyBook (lowerString o.bookKey)) ||
    decide (lowerString o.bookKey = "pinnacle")

/-- Spec-side point equality, from the spec's words: absolute epsilon of
1e-3, both-absent equal, absent vs present unequal. -/
def pointEqualSpec (a b : Option ℚ) : Bool :=
  match a, b with
  | Option.none, Option.none => true
  | some x, some y => decide (|x - y| ≤ 1/1000)
  | _, _ => false

/-- Spec-side change classification, from the spec's words: New when
the cached entry is absent or cannot be decoded, Both when both price
and point differ, PriceOnly when only price differs, PointOnly when
only point differs, None otherwise. -/
def classifySpec (entry : CacheEntry) (q : RawOdds) : ChangeType :=
  match entry with
  | CacheEntry.absent => ChangeType.new
  | CacheEntry.corrupt => ChangeType.new
  | CacheEntry.value c =>
    let priceDiff : Bool := decide (q.price ≠ c.price)
    let pointDiff : Bool := !(pointEqualSpec q.point c.point)
    if priceDiff && pointDiff then ChangeType.both
    else if priceDiff then ChangeType.priceOnly
    else if pointDiff then ChangeType.pointOnly
    else ChangeType.none

/-- Spec-side single tick of the status promotion loop with the amended
(half-open) live window: upcoming events with commence time in
(now - 5 min, now] become live, live events with commence time older
than 3 hours become completed, nothing else changes. -/
def updateStatusesSpec (now : Int) (events : List LEvent) : List LEvent :=
  events.map fun e =>
    if e.status = "upcoming" ∧ now - 300 < e.commenceTime ∧
        e.commenceTime ≤ now then
      LEvent.mk e.eventID e.sportKey e.homeTeam e.awayTeam e.commenceTime
        "live"
    else if e.status = "live" ∧ e.commenceTime < now - 3 * 3600 then
      LEvent.mk e.eventID e.sportKey e.homeTeam e.awayTeam e.commenceTime
        "completed"
    else e
/-- The full backoff schedule the loop would sleep if every attempt
failed retryably, starting at attempt index k with n attempts left. -/
def allDelays : Nat → Nat → List Nat
  | _, 0 => []
  | k, n + 1 => preDelay k ++ allDelays (k + 1) n

/-- Number of archive rows that are current for a given quote
identity. -/
def countCurrent (archive : List OddsRow)
    (i : String × String × String × String) : Nat :=
  archive.countP fun r => r.isLatest && decide (identityOf r.odd = i)

lemma filterEUBooks_eq_filter_spec (odds : List RawOdds) :
    filterEUBooks odds = odds.filter keepBookSpec := by
  unfold filterEUBooks keepBookSpec
  apply List.filter_congr
  intro o _
  by_cases h : isEUOnlyBook (lowerString o.bookKey)
  · rw [Bool.eq_iff_iff]
    simp [h, allowedEUBooks, List.contains, eq_comm]
  · simp [h]

/-- C7: the writer's pre-filter keeps a quote iff its book key is not on
the European-only list or it is pinnacle; an input of marathonbet,
pinnacle and fanduel quotes keeps exactly the latter two in order. -/
theorem filterEUBooks_keeps_non_eu_or_pinnacle :
    (∀ odds : List RawOdds, filterEUBooks odds = odds.filter keepBookSpec) ∧
    filterEUBooks
        [RawOdds.mk "e1" "basketball_nba" "h2h" "marathonbet" "Lakers" 100 Option.none 0 0,
         RawOdds.mk "e1" "basketball_nba" "h2h" "pinnacle" "Lakers" 105 Option.none 0 0,
         RawOdds.mk "e1" "basketball_nba" "h2h" "fanduel" "Lakers" 110 Option.none 0 0] =
      [RawOdds.mk "e1" "basketball_nba" "h2h" "pinnacle" "Lakers" 105 Option.none 0 0,
       RawOdds.mk "e1" "basketball_nba" "h2h" "fanduel" "Lakers" 110 Option.none 0 0] := by
  constructor
  · exact filterEUBooks_eq_filter_spec
  · decide

/-- C10: WriteWithEvents with an empty event list and an empty quote
list returns success and leaves the writer state untouched. -/
theorem writeWithEvents_empty_noop (now : Int) (talosOn : Bool)
    (s : WriterState) (dbOk : Bool) :
    writeWithEvents now talosOn s [] [] dbOk = (WriteResult.ok, s) := by
  simp [writeWithEvents]

lemma statusStep_eq (now : Int) (e : LEvent) :
    toCompletedStep now (toLiveStep now e) =
      (if e.status = "upcoming" ∧ now - 300 < e.commenceTime ∧
          e.commenceTime ≤ now then
        LEvent.mk e.eventID e.sportKey e.homeTeam e.awayTeam e.commenceTime
          "live"
      else if e.status = "live" ∧ e.commenceTime < now - 3 * 3600 then
        LEvent.mk e.eventID e.sportKey e.homeTeam e.awayTeam e.commenceTime
          "completed"
      else e) := by
  unfold toLiveStep toCompletedStep
  split_ifs <;> simp_all <;> omega

/-- C5 amended: one tick of the status promotion loop equals the
spec-side tick whose live window is the half-open interval
(now - 5 min, now]. -/
theorem updateStatuses_eq_spec (now : Int) (events : List LEvent) :
    updateStatuses now events = updateStatusesSpec now events := by
  unfold updateStatuses updateStatusesSpec
  rw [List.map_map]
  apply List.map_congr_left
  intro e _
  exact statusStep_eq now e

/-- C5 counterexample: at now = 1000 an upcoming event with commence
time exactly now - 300 (the closed-interval boundary the claim
includes) is left upcoming by the tick, not promoted to live. -/
theorem updateStatuses_boundary_not_promoted :
    (LEvent.mk "x" "basketball_nba" "h" "a" 700 "upcoming").status =
        "upcoming" ∧
    1000 - 300 ≤ 700 ∧ 700 ≤ 1000 ∧
    updateStatuses 1000 [LEvent.mk "x" "basketball_nba" "h" "a" 700 "upcoming"] =
      [LEvent.mk "x" "basketball_nba" "h" "a" 700 "upcoming"] ∧
    (updateStatuses 1000
        [LEvent.mk "x" "basketball_nba" "h" "a" 700 "upcoming"]).map
        LEvent.status ≠ ["live"] := by
  refine ⟨rfl, by norm_num, by norm_num, by decide, by decide⟩

/-- C9: an upcoming event whose commence time is more than 5 minutes in
the past at every tick of the status updater is never promoted; its
status stays upcoming under any number of ticks. -/
theorem upcoming_stale_event_never_promoted (ticks : List Int)
    (e : LEvent) (hup : e.status = "upcoming")
    (hold : ∀ t ∈ ticks, e.commenceTime < t - 300) :
    runStatusTicks ticks [e] = [e] := by
  induction ticks with
  | nil => rfl
  | cons t ts ih =>
    have hstep : updateStatuses t [e] = [e] := by
      unfold updateStatuses toLiveStep toCompletedStep
      have h1 : ¬ (e.status = "upcoming" ∧ e.commenceTime ≤ t ∧
          e.commenceTime > t - 300) := by
        have := hold t (by simp)
        intro hc
        omega
      rw [List.map_cons, List.map_nil, if_neg h1, List.map_cons,
        List.map_nil, if_neg (by rw [hup]; simp)]
    unfold runStatusTicks
    rw [List.foldl_cons, hstep]
    exact ih (fun t ht => hold t (List.mem_cons_of_mem _ ht))

/-- Witness for the never-promoted theorem at two concrete ticks. -/
theorem upcoming_stale_event_never_promoted_witness :
    runStatusTicks [1000, 20000]
        [LEvent.mk "x" "basketball_nba" "h" "a" 0 "upcoming"] =
      [LEvent.mk "x" "basketball_nba" "h" "a" 0 "upcoming"] :=
  upcoming_stale_event_never_promoted [1000, 20000]
    (LEvent.mk "x" "basketball_nba" "h" "a" 0 "upcoming") rfl
    (by intro t ht; fin_cases ht <;> norm_num)

lemma retryGo_attempts_le (attempts : Nat → AttemptResult) (k n : Nat) :
    (retryGo attempts k n).attemptsMade ≤ n := by
  induction n generalizing k with
  | zero => simp [retryGo]
  | succ m ih =>
    unfold retryGo
    rcases h : attempts k with b | ⟨st, msg⟩ | msg <;> dsimp only
    · omega
    · split
      · dsimp only
        omega
      · have := ih (k + 1)
        dsimp only
        omega
    · split
      · dsimp only
        omega
      · have := ih (k + 1)
        dsimp only
        omega

lemma retryGo_delays_schedule (attempts : Nat → AttemptResult) (k n : Nat) :
    ∃ t, (retryGo attempts k n).delays ++ t = allDelays k n := by
  induction n generalizing k with
  | zero => exact ⟨[], rfl⟩
  | succ m ih =>
    unfold retryGo
    rw [show allDelays k (m + 1) = preDelay k ++ allDelays (k + 1) m from rfl]
    rcases h : attempts k with b | ⟨st, msg⟩ | msg <;> dsimp only
    · exact ⟨allDelays (k + 1) m, by simp⟩
    · split
      · exact ⟨allDelays (k + 1) m, by simp⟩
      · obtain ⟨t, ht⟩ := ih (k + 1)
        exact ⟨t, by rw [List.append_assoc, ht]⟩
    · split
      · exact ⟨allDelays (k + 1) m, by simp⟩
      · obtain ⟨t, ht⟩ := ih (k + 1)
        exact ⟨t, by rw [List.append_assoc, ht]⟩

lemma retryGo_nonRetryable_first (attempts : Nat → AttemptResult) (n : Nat)
    (h : nonRetryable (attempts 0) = true) :
    retryGo attempts 0 (n + 1) =
      RetryTrace.mk [] 1 (ReqResult.failure "client error") := by
  unfold retryGo
  rcases ha : attempts 0 with b | ⟨st, msg⟩ | msg <;> rw [ha] at h <;>
    dsimp only
  · simp [nonRetryable] at h
  · rw [if_pos h]
    rfl
  · simp [nonRetryable] at h

/-- C8 amended: the vendor request loop makes at most three attempts;
the backoff delays it sleeps form a prefix of the schedule 2 s then 4 s
(so at most two retries, with delays 2 and 4 seconds); and when the
first attempt fails with a 4xx status other than 429 it returns that
failure immediately, after exactly one attempt and no backoff. -/
theorem doRequestWithRetry_behaviour (attempts : Nat → AttemptResult) :
    (doRequestWithRetry attempts).attemptsMade ≤ 3 ∧
    (∃ t, (doRequestWithRetry attempts).delays ++ t = [2, 4]) ∧
    (nonRetryable (attempts 0) = true →
      doRequestWithRetry attempts =
        RetryTrace.mk [] 1 (ReqResult.failure "client error")) := by
  refine ⟨retryGo_attempts_le attempts 0 3, ?_, ?_⟩
  · have h := retryGo_delays_schedule attempts 0 3
    have hall : allDelays 0 3 = [2, 4] := rfl
    rw [hall] at h
    exact h
  · intro h
    exact retryGo_nonRetryable_first attempts 2 h

/-- Witness for the retry-behaviour theorem: a request whose first
attempt returns status 404 makes exactly one attempt, sleeps no
backoff, and fails. -/
theorem doRequestWithRetry_behaviour_witness :
    doRequestWithRetry (fun _ => AttemptResult.httpErr 404 "not found") =
      RetryTrace.mk [] 1 (ReqResult.failure "client error") :=
  (doRequestWithRetry_behaviour
      (fun _ => AttemptResult.httpErr 404 "not found")).2.2 (by decide)

/-- C8 counterexample: when every attempt fails with status 500 the
loop sleeps backoff delays of exactly 2 and 4 seconds -- not the
1, 2, 4 seconds the claim states -- and makes three attempts in total,
hence only two retries, not three. -/
theorem doRequestWithRetry_counterexample :
    doRequestWithRetry (fun _ => AttemptResult.httpErr 500 "server error") =
      RetryTrace.mk [2, 4] 3 (ReqResult.failure "max retries exceeded") ∧
    ([2, 4] : List Nat) ≠ [1, 2, 4] ∧
    (doRequestWithRetry
        (fun _ => AttemptResult.httpErr 500 "server error")).attemptsMade
      ≠ 4 := by
  refine ⟨by decide, by decide, by decide⟩

lemma pointChanged_eq_not_pointEqualSpec (a b : Option ℚ) :
    pointChanged a b = !(pointEqualSpec a b) := by
  rcases a with _ | x <;> rcases b with _ | y <;>
    simp only [pointChanged, pointEqualSpec, Bool.not_true, Bool.not_false]
  have habs : (if x - y < 0 then -(x - y) else (x - y)) = |x - y| := by
    rcases lt_or_le (x - y) 0 with h | h
    · rw [if_pos h, abs_of_neg h]
    · rw [if_neg (not_lt.mpr h), abs_of_nonneg h]
  rw [habs, Bool.eq_iff_iff]
  simp [not_le]

lemma compareOdd_fst_eq_classifySpec (q : RawOdds) (entry : CacheEntry) :
    (compareOdd q entry).1 = classifySpec entry q := by
  rcases entry with _ | _ | c
  · rfl
  · rfl
  · simp only [compareOdd, classifySpec, pointChanged_eq_not_pointEqualSpec]
    cases hp : decide (q.price ≠ c.price) <;>
      cases hq : pointEqualSpec q.point c.point <;> simp [hp, hq]

lemma detectChanges_map_odd_sublist (cache : Cache) (Q : List RawOdds) :
    ((detectChanges cache Q).map Delta.odd).Sublist Q := by
  induction Q with
  | nil => simp [detectChanges]
  | cons q Q ih =>
    simp only [detectChanges, List.filterMap_cons] at ih ⊢
    rcases h : compareOdd q (cache (buildKey q)) with ⟨ct, op, opt⟩
    cases ct
    · exact List.Sublist.cons₂ q ih
    · exact List.Sublist.cons₂ q ih
    · exact List.Sublist.cons₂ q ih
    · exact List.Sublist.cons₂ q ih
    · exact List.Sublist.cons q ih

lemma detectChanges_classification (cache : Cache) (Q : List RawOdds) :
    (detectChanges cache Q).map (fun d => (d.odd, d.changeType)) =
      Q.filterMap fun q =>
        if classifySpec (cache (buildKey q)) q = ChangeType.none then
          Option.none
        else some (q, classifySpec (cache (buildKey q)) q) := by
  induction Q with
  | nil => rfl
  | cons q Q ih =>
    simp only [detectChanges, List.filterMap_cons] at ih ⊢
    have hcs : classifySpec (cache (buildKey q)) q =
        (compareOdd q (cache (buildKey q))).1 :=
      (compareOdd_fst_eq_classifySpec q (cache (buildKey q))).symm
    rcases h : compareOdd q (cache (buildKey q)) with ⟨ct, op, opt⟩
    rw [h] at hcs
    cases ct <;> simp [hcs, ih]

/-- C3: detect_changes returns an order-preserving subsequence of its
input -- exactly the quotes whose classification against the cached
value is not None, in input order, where the classification follows the
spec's rules (New on absent or undecodable entry, Both / PriceOnly /
PointOnly by which fields differ, point equality up to an absolute
epsilon of 1e-3, None equals None, None differs from Some). -/
theorem detectChanges_is_classified_subsequence (cache : Cache)
    (Q : List RawOdds) :
    ((detectChanges cache Q).map Delta.odd).Sublist Q ∧
    (detectChanges cache Q).map (fun d => (d.odd, d.changeType)) =
      Q.filterMap fun q =>
        if classifySpec (cache (buildKey q)) q = ChangeType.none then
          Option.none
        else some (q, classifySpec (cache (buildKey q)) q) :=
  ⟨detectChanges_map_odd_sublist cache Q,
   detectChanges_classification cache Q⟩

lemma updateCache_apply_of_not_key (cache : Cache) (odds : List RawOdds)
    (k : String) (h : ∀ o ∈ odds, buildKey o ≠ k) :
    updateCache cache odds k = cache k := by
  induction odds generalizing cache with
  | nil => rfl
  | cons a t ih =>
    have ha : buildKey a ≠ k := h a (by simp)
    have := ih (setCached cache a) (fun o ho => h o (by simp [ho]))
    rw [updateCache] at this ⊢
    rw [List.foldl_cons, this, setCached, if_neg (fun hk => ha hk.symm)]

lemma updateCache_apply_self (cache : Cache) (odds : List RawOdds)
    (q : RawOdds) (hq : q ∈ odds) (hnd : (odds.map buildKey).Nodup) :
    updateCache cache odds (buildKey q) =
      CacheEntry.value (encodeCached q) := by
  induction odds generalizing cache with
  | nil => cases hq
  | cons a t ih =>
    rw [List.map_cons, List.nodup_cons] at hnd
    rcases List.mem_cons.mp hq with rfl | hmem
    · have hnot : ∀ o ∈ t, buildKey o ≠ buildKey q := by
        intro o ho hk
        exact hnd.1 (hk ▸ List.mem_map_of_mem buildKey ho)
      rw [updateCache, List.foldl_cons]
      have := updateCache_apply_of_not_key (setCached cache q) t
        (buildKey q) hnot
      rw [updateCache] at this
      rw [this, setCached, if_pos rfl]
    · rw [updateCache, List.foldl_cons]
      exact ih (setCached cache a) hmem hnd.2

lemma compareOdd_self_none (q : RawOdds) :
    compareOdd q (CacheEntry.value (encodeCached q)) =
      (ChangeType.none, Option.none, Option.none) := by
  have hpt : pointChanged q.point q.point = false := by
    rcases q.point with _ | x
    · rfl
    · simp [pointChanged, sub_self]
  simp [compareOdd, encodeCached, hpt]

/-- C4 amended: when the cache keys built from the quotes of Q are
pairwise distinct, running update_cache(Q) and then detect_changes(Q)
with no intervening cache mutation returns an empty list. -/
theorem updateCache_then_detectChanges_empty (cache : Cache)
    (Q : List RawOdds) (hnd : (Q.map buildKey).Nodup) :
    detectChanges (updateCache cache Q) Q = [] := by
  rw [detectChanges, List.filterMap_eq_nil_iff]
  intro q hq
  rw [updateCache_apply_self cache Q q hq hnd, compareOdd_self_none]

/-- Witness: a single fanduel moneyline quote round-trips to no
detected change. -/
theorem updateCache_then_detectChanges_empty_witness :
    detectChanges
        (updateCache (fun _ => CacheEntry.absent)
          [RawOdds.mk "e1" "basketball_nba" "h2h" "fanduel" "Lakers" (-110)
            Option.none 0 0])
        [RawOdds.mk "e1" "basketball_nba" "h2h" "fanduel" "Lakers" (-110)
          Option.none 0 0] = [] :=
  updateCache_then_detectChanges_empty (fun _ => CacheEntry.absent)
    [RawOdds.mk "e1" "basketball_nba" "h2h" "fanduel" "Lakers" (-110)
      Option.none 0 0] (by decide)

/-- C4 counterexample: two quotes sharing one identity but with
different prices -- after update_cache the cache holds the later price,
so detect_changes on the same list reports the earlier quote as a
price-only change instead of returning the empty list. -/
theorem updateCache_then_detectChanges_counterexample :
    detectChanges
        (updateCache (fun _ => CacheEntry.absent)
          [RawOdds.mk "e1" "basketball_nba" "h2h" "fanduel" "Lakers" (-110)
            Option.none 0 0,
           RawOdds.mk "e1" "basketball_nba" "h2h" "fanduel" "Lakers" (-115)
            Option.none 0 0])
        [RawOdds.mk "e1" "basketball_nba" "h2h" "fanduel" "Lakers" (-110)
          Option.none 0 0,
         RawOdds.mk "e1" "basketball_nba" "h2h" "fanduel" "Lakers" (-115)
          Option.none 0 0] =
      [Delta.mk
        (RawOdds.mk "e1" "basketball_nba" "h2h" "fanduel" "Lakers" (-110)
          Option.none 0 0)
        ChangeType.priceOnly (some (-115)) Option.none] ∧
    detectChanges
        (updateCache (fun _ => CacheEntry.absent)
          [RawOdds.mk "e1" "basketball_nba" "h2h" "fanduel" "Lakers" (-110)
            Option.none 0 0,
           RawOdds.mk "e1" "basketball_nba" "h2h" "fanduel" "Lakers" (-115)
            Option.none 0 0])
        [RawOdds.mk "e1" "basketball_nba" "h2h" "fanduel" "Lakers" (-110)
          Option.none 0 0,
         RawOdds.mk "e1" "basketball_nba" "h2h" "fanduel" "Lakers" (-115)
          Option.none 0 0] ≠ [] := by
  refine ⟨by decide, by decide⟩

lemma countP_map_eq_one_of_nodup {α β : Type} [DecidableEq β] (l : List α)
    (f : α → β) (i : β) (hnd : (l.map f).Nodup) (hi : i ∈ l.map f) :
    l.countP (fun a => decide (f a = i)) = 1 := by
  induction l with
  | nil => cases hi
  | cons a t ih =>
    rw [List.map_cons, List.nodup_cons] at hnd
    rcases List.mem_cons.mp hi with heq | hmem
    · rw [List.countP_cons_of_pos _ _ (by simpa using heq.symm)]
      have hz : t.countP (fun a => decide (f a = i)) = 0 := by
        rw [List.countP_eq_zero]
        intro x hx
        simp only [decide_eq_true_eq]
        intro hfx
        exact hnd.1 (heq ▸ hfx ▸ List.mem_map_of_mem f hx)
      rw [hz]
    · have hne : ¬ f a = i := by
        intro heq
        exact hnd.1 (heq ▸ hmem)
      rw [List.countP_cons_of_neg _ _ (by simpa using hne)]
      exact ih hnd.2 hmem

lemma updatePreviousOdds_countCurrent_zero (archive : List OddsRow)
    (odds : List RawOdds) (i : String × String × String × String)
    (hi : i ∈ odds.map identityOf) :
    countCurrent (updatePreviousOdds archive odds) i = 0 := by
  rw [countCurrent, List.countP_eq_zero]
  intro r' hr'
  rw [updatePreviousOdds, List.mem_map] at hr'
  obtain ⟨r, _, hmk⟩ := hr'
  obtain ⟨o, ho, hoi⟩ := List.mem_map.mp hi
  by_cases hc : r.isLatest ∧ odds.any (fun o => identityOf o = identityOf r.odd)
  · rw [if_pos hc] at hmk
    simp [← hmk]
  · rw [if_neg hc] at hmk
    subst hmk
    simp only [Bool.and_eq_true, decide_eq_true_eq, not_and]
    intro hl hid
    exact absurd ⟨hl, List.any_eq_true.mpr ⟨o, ho, by simp [hoi, hid]⟩⟩ hc

lemma insertNewOdds_countCurrent (archive : List OddsRow)
    (odds : List RawOdds) (i : String × String × String × String) :
    countCurrent (insertNewOdds archive odds) i =
      countCurrent archive i +
        odds.countP (fun o => decide (identityOf o = i)) := by
  rw [insertNewOdds, countCurrent, List.countP_append, countCurrent]
  congr 1
  rw [List.countP_map]
  apply List.countP_congr
  intro o _
  simp [Function.comp]

/-- C1 amended: after a successful WriteWithEvents whose filtered batch
has pairwise-distinct quote identities, the archive holds exactly one
is_latest row for each identity occurring in the filtered batch
(regardless of the prior archive contents). -/
theorem writeWithEvents_unique_latest (now : Int) (talosOn : Bool)
    (s : WriterState) (events : List Event) (odds : List RawOdds)
    (hnd : ((filterEUBooks odds).map identityOf).Nodup) :
    ∀ i ∈ (filterEUBooks odds).map identityOf,
      countCurrent
        ((writeWithEvents now talosOn s events odds true).2.archive) i = 1 := by
  intro i hi
  have hodds : ¬ (events = [] ∧ odds = []) := by
    rintro ⟨-, rfl⟩
    simp [filterEUBooks] at hi
  rw [writeWithEvents, if_neg hodds]
  rw [if_pos rfl]
  dsimp only
  rw [insertNewOdds_countCurrent,
    updatePreviousOdds_countCurrent_zero s.archive (filterEUBooks odds) i hi,
    Nat.zero_add]
  exact countP_map_eq_one_of_nodup (filterEUBooks odds) identityOf i hnd hi

/-- Witness: one fanduel quote yields exactly one current row for its
identity. -/
theorem writeWithEvents_unique_latest_witness :
    countCurrent
        ((writeWithEvents 0 false initialWriterState []
          [RawOdds.mk "e1" "basketball_nba" "h2h" "fanduel" "Lakers" (-110)
            Option.none 0 0] true).2.archive)
        ("e1", "h2h", "fanduel", "Lakers") = 1 :=
  writeWithEvents_unique_latest 0 false initialWriterState []
    [RawOdds.mk "e1" "basketball_nba" "h2h" "fanduel" "Lakers" (-110)
      Option.none 0 0] (by decide)
    ("e1", "h2h", "fanduel", "Lakers") (by decide)

/-- C1 counterexample: a batch containing the same identity twice (two
alternate observations of one quote) leaves two is_latest rows for that
identity after a successful WriteWithEvents, not exactly one. -/
theorem writeWithEvents_unique_latest_counterexample :
    countCurrent
        ((writeWithEvents 0 false initialWriterState []
          [RawOdds.mk "e1" "basketball_nba" "h2h" "fanduel" "Lakers" (-110)
            Option.none 0 0,
           RawOdds.mk "e1" "basketball_nba" "h2h" "fanduel" "Lakers" (-115)
            Option.none 0 0] true).2.archive)
        ("e1", "h2h", "fanduel", "Lakers") = 2 ∧
    ("e1", "h2h", "fanduel", "Lakers") ∈
      (filterEUBooks
        [RawOdds.mk "e1" "basketball_nba" "h2h" "fanduel" "Lakers" (-110)
          Option.none 0 0,
         RawOdds.mk "e1" "basketball_nba" "h2h" "fanduel" "Lakers" (-115)
          Option.none 0 0]).map identityOf ∧
    countCurrent
        ((writeWithEvents 0 false initialWriterState []
          [RawOdds.mk "e1" "basketball_nba" "h2h" "fanduel" "Lakers" (-110)
            Option.none 0 0,
           RawOdds.mk "e1" "basketball_nba" "h2h" "fanduel" "Lakers" (-115)
            Option.none 0 0] true).2.archive)
        ("e1", "h2h", "fanduel", "Lakers") ≠ 1 := by
  refine ⟨by decide, by decide, by decide⟩

lemma identifyNewEvents_foldl_mem (events : List Event)
    (acc : List Event × List String) (x : String) :
    x ∈ (events.foldl
        (fun acc evt =>
          if evt.eventID ∈ acc.2 then acc
          else (acc.1 ++ [evt], evt.eventID :: acc.2)) acc).2 ↔
      x ∈ acc.2 ∨ ∃ ev ∈ events, ev.eventID = x := by
  induction events generalizing acc with
  | nil => simp
  | cons a t ih =>
    rw [List.foldl_cons]
    by_cases hc : a.eventID ∈ acc.2
    · rw [if_pos hc, ih]
      constructor
      · rintro (hx | hx)
        · exact Or.inl hx
        · exact Or.inr ⟨_, by simp [hx.choose_spec.1], hx.choose_spec.2⟩
      · rintro (hx | ⟨ev, hev, hevx⟩)
        · exact Or.inl hx
        · rcases List.mem_cons.mp hev with rfl | hev
          · exact Or.inl (hevx ▸ hc)
          · exact Or.inr ⟨ev, hev, hevx⟩
    · rw [if_neg hc, ih]
      constructor
      · rintro (hx | hx)
        · rcases List.mem_cons.mp hx with rfl | hx
          · exact Or.inr ⟨a, by simp⟩
          · exact Or.inl hx
        · exact Or.inr ⟨_, by simp [hx.choose_spec.1], hx.choose_spec.2⟩
      · rintro (hx | ⟨ev, hev, hevx⟩)
        · exact Or.inl (List.mem_cons_of_mem _ hx)
        · rcases List.mem_cons.mp hev with rfl | hev
          · exact Or.inl (by simp [hevx])
          · exact Or.inr ⟨ev, hev, hevx⟩

lemma identifyNewEvents_snd_mem (seen : List String) (events : List Event)
    (x : String) :
    x ∈ (identifyNewEvents seen events).2 ↔
      x ∈ seen ∨ ∃ ev ∈ events, ev.eventID = x := by
  rw [identifyNewEvents]
  exact identifyNewEvents_foldl_mem events ([], seen) x

lemma writeWithEvents_seen_mem (now : Int) (talosOn : Bool)
    (s : WriterState) (events : List Event) (odds : List RawOdds)
    (dbOk : Bool) (x : String) :
    x ∈ (writeWithEvents now talosOn s events odds dbOk).2.seenEvents ↔
      x ∈ s.seenEvents ∨ ∃ ev ∈ events, ev.eventID = x := by
  rw [writeWithEvents]
  split_ifs with hempty hdb htalos
  · rw [hempty.1]
    simp
  · show x ∈ (identifyNewEvents s.seenEvents events).2 ↔ _
    exact identifyNewEvents_snd_mem s.seenEvents events x
  · show x ∈ (identifyNewEvents s.seenEvents events).2 ↔ _
    exact identifyNewEvents_snd_mem s.seenEvents events x
  · show x ∈ (identifyNewEvents s.seenEvents events).2 ↔ _
    exact identifyNewEvents_snd_mem s.seenEvents events x

lemma runCalls_seen_mem (calls : List WCall) (s : WriterState) (x : String) :
    x ∈ (runCalls s calls).seenEvents ↔
      x ∈ s.seenEvents ∨ ∃ c ∈ calls, ∃ ev ∈ c.events, ev.eventID = x := by
  induction calls generalizing s with
  | nil => simp [runCalls]
  | cons c t ih =>
    rw [runCalls, List.foldl_cons]
    rw [show List.foldl _ _ t = runCalls
      (writeWithEvents c.now c.talosOn s c.events c.odds c.dbOk).2 t from rfl]
    rw [ih, writeWithEvents_seen_mem]
    constructor
    · rintro ((hx | hx) | hx)
      · exact Or.inl hx
      · exact Or.inr ⟨c, by simp, hx⟩
      · exact Or.inr ⟨_, by simp [hx.choose_spec.1], hx.choose_spec.2⟩
    · rintro (hx | ⟨c', hc', hev⟩)
      · exact Or.inl (Or.inl hx)
      · rcases List.mem_cons.mp hc' with rfl | hc'
        · exact Or.inl (Or.inr hev)
        · exact Or.inr ⟨c', hc', hev⟩

/-- C2 amended: when the transaction of a non-trivial WriteWithEvents
call fails, the call returns the error, publishes nothing, and leaves
the archive, events, books and warm state unchanged -- but the events
newly marked seen before the transaction stay marked; consequently over
any history of calls from startup, the seen-events set contains an id
iff some call (successful or not) carried an event with that id. -/
theorem writeWithEvents_failure_keeps_marks :
    (∀ (now : Int) (talosOn : Bool) (s : WriterState) (events : List Event)
        (odds : List RawOdds), ¬ (events = [] ∧ odds = []) →
      writeWithEvents now talosOn s events odds false =
        (WriteResult.error "transaction failed",
         WriterState.mk s.archive s.eventsTable s.books s.published s.warms
           (identifyNewEvents s.seenEvents events).2 (s.txBegun + 1))) ∧
    (∀ (calls : List WCall) (x : String),
      x ∈ (runCalls initialWriterState calls).seenEvents ↔
        ∃ c ∈ calls, ∃ ev ∈ c.events, ev.eventID = x) := by
  constructor
  · intro now talosOn s events odds h
    rw [writeWithEvents, if_neg h]
    rfl
  · intro calls x
    rw [runCalls_seen_mem]
    simp [initialWriterState]

/-- Witness: a failing call that carries one event returns the error
and leaves that event marked seen. -/
theorem writeWithEvents_failure_keeps_marks_witness :
    writeWithEvents 0 false initialWriterState
        [Event.mk "E1" "basketball_nba" "h" "a" 0 "upcoming"] [] false =
      (WriteResult.error "transaction failed",
       WriterState.mk [] [] [] [] [] ["E1"] 1) :=
  (writeWithEvents_failure_keeps_marks.1 0 false initialWriterState
      [Event.mk "E1" "basketball_nba" "h" "a" 0 "upcoming"] []
      (by simp)).trans (by decide)

/-- C2 counterexample: a call whose transaction fails still adds the
event id it saw to the seen-events set, so the set is not left
unchanged and contains an id never successfully committed. -/
theorem writeWithEvents_failure_counterexample :
    (writeWithEvents 0 false initialWriterState
        [Event.mk "E1" "basketball_nba" "h" "a" 0 "upcoming"] [] false).1 =
      WriteResult.error "transaction failed" ∧
    (writeWithEvents 0 false initialWriterState
        [Event.mk "E1" "basketball_nba" "h" "a" 0 "upcoming"] []
        false).2.seenEvents = ["E1"] ∧
    (writeWithEvents 0 false initialWriterState
        [Event.mk "E1" "basketball_nba" "h" "a" 0 "upcoming"] []
        false).2.seenEvents ≠ initialWriterState.seenEvents := by
  refine ⟨by decide, by decide, by decide⟩

lemma insertClosingRow_mem_of_mem (tbl : List ClosingRow) (r x : ClosingRow)
    (hx : x ∈ tbl) : x ∈ insertClosingRow tbl r := by
  rw [insertClosingRow]
  split
  · exact hx
  · exact List.mem_append_left _ hx

lemma foldl_insertClosingRow_mem_of_mem (rows : List ClosingRow)
    (tbl : List ClosingRow) (x : ClosingRow) (hx : x ∈ tbl) :
    x ∈ rows.foldl insertClosingRow tbl := by
  induction rows generalizing tbl with
  | nil => exact hx
  | cons r rest ih =>
    rw [List.foldl_cons]
    exact ih _ (insertClosingRow_mem_of_mem tbl r x hx)

lemma closingRowsFor_eventID (now : Int) (archive : List OddsRow)
    (eventID : String) (x : ClosingRow)
    (hx : x ∈ closingRowsFor now archive eventID) : x.eventID = eventID := by
  rw [closingRowsFor, List.mem_map] at hx
  obtain ⟨r, hr, rfl⟩ := hx
  have hb := (List.mem_filter.mp hr).2
  simp only [decide_eq_true_eq] at hb
  exact hb.1

lemma captureEvent_of_nil_rows (now : Int) (archive : List OddsRow)
    (tbl : List ClosingRow) (eventID : String)
    (h : closingRowsFor now archive eventID = []) :
    captureEventClosingLines now archive tbl eventID = tbl := by
  rw [captureEventClosingLines, h]
  rfl

lemma captureEvent_mem_of_rows (now : Int) (archive : List OddsRow)
    (tbl : List ClosingRow) (eventID : String)
    (h : closingRowsFor now archive eventID ≠ []) :
    ∃ x ∈ captureEventClosingLines now archive tbl eventID,
      x.eventID = eventID := by
  rw [captureEventClosingLines]
  rcases hrows : closingRowsFor now archive eventID with _ | ⟨r0, rest⟩
  · exact absurd hrows h
  have hr0 : r0 ∈ closingRowsFor now archive eventID := by
    rw [hrows]; simp
  have hid := closingRowsFor_eventID now archive eventID r0 hr0
  rw [List.foldl_cons]
  rw [insertClosingRow]
  split
  · rename_i hconf
    obtain ⟨y, hy, hkey⟩ := List.any_eq_true.mp hconf
    refine ⟨y, foldl_insertClosingRow_mem_of_mem rest tbl y hy, ?_⟩
    have hk := of_decide_eq_true hkey
    exact hk.1 ▸ hid
  · refine ⟨r0, foldl_insertClosingRow_mem_of_mem rest _ r0 (by simp), hid⟩

lemma captureEvent_mem_of_mem (now : Int) (archive : List OddsRow)
    (tbl : List ClosingRow) (eventID : String) (x : ClosingRow)
    (hx : x ∈ tbl) : x ∈ captureEventClosingLines now archive tbl eventID :=
  foldl_insertClosingRow_mem_of_mem _ tbl x hx

lemma foldl_captureAll_mem_of_mem (now : Int) (archive : List OddsRow)
    (cands : List LEvent) (tbl : List ClosingRow) (x : ClosingRow)
    (hx : x ∈ tbl) :
    x ∈ cands.foldl
      (fun tbl e => captureEventClosingLines now archive tbl e.eventID)
      tbl := by
  induction cands generalizing tbl with
  | nil => exact hx
  | cons c rest ih =>
    rw [List.foldl_cons]
    exact ih _ (captureEvent_mem_of_mem now archive tbl c.eventID x hx)

lemma foldl_captureAll_mem (now : Int) (archive : List OddsRow)
    (cands : List LEvent) (tbl : List ClosingRow) (e : LEvent)
    (he : e ∈ cands) (hrows : closingRowsFor now archive e.eventID ≠ []) :
    ∃ x ∈ cands.foldl
        (fun tbl e => captureEventClosingLines now archive tbl e.eventID)
        tbl,
      x.eventID = e.eventID := by
  induction cands generalizing tbl with
  | nil => cases he
  | cons c rest ih =>
    rw [List.foldl_cons]
    rcases List.mem_cons.mp he with rfl | hmem
    · obtain ⟨x, hx, hxid⟩ :=
        captureEvent_mem_of_rows now archive tbl e.eventID hrows
      exact ⟨x, foldl_captureAll_mem_of_mem now archive rest _ x hx, hxid⟩
    · exact ih _ hmem

lemma foldl_captureAll_of_all_nil (now : Int) (archive : List OddsRow)
    (cands : List LEvent) (tbl : List ClosingRow)
    (h : ∀ e ∈ cands, closingRowsFor now archive e.eventID = []) :
    cands.foldl
        (fun tbl e => captureEventClosingLines now archive tbl e.eventID)
        tbl = tbl := by
  induction cands generalizing tbl with
  | nil => rfl
  | cons c rest ih =>
    rw [List.foldl_cons,
      captureEvent_of_nil_rows now archive tbl c.eventID (h c (by simp))]
    exact ih _ (fun e he => h e (List.mem_cons_of_mem _ he))

/-- C6: one tick of the closing-line capture loop is idempotent --
re-running the loop on the resulting state (at the same instant)
changes nothing: every event already captured has a closing row and is
excluded from selection, inserts ignore composite-key conflicts, and a
selected event with no current quotes inserts nothing either time. -/
theorem captureClosingLines_idempotent (now : Int) (s : CaptureState) :
    captureClosingLines now (captureClosingLines now s) =
      captureClosingLines now s := by
  have key : ∀ e ∈ closingCandidates now s.events
      (captureClosingLines now s).closing,
      closingRowsFor now s.archive e.eventID = [] := by
    intro e he
    by_contra hne
    have hmem := List.mem_filter.mp he
    have hpred := of_decide_eq_true hmem.2
    have hnotin : ¬ ((captureClosingLines now s).closing.any
        (fun r => r.eventID = e.eventID)) = true := hpred.2.2.2
    have he0 : e ∈ closingCandidates now s.events s.closing := by
      rw [closingCandidates, List.mem_filter]
      refine ⟨hmem.1, decide_eq_true ?_⟩
      refine ⟨hpred.1, hpred.2.1, hpred.2.2.1, ?_⟩
      intro hany
      obtain ⟨r, hr, hrid⟩ := List.any_eq_true.mp hany
      refine hnotin (List.any_eq_true.mpr ⟨r, ?_, hrid⟩)
      show r ∈ (closingCandidates now s.events s.closing).foldl
        (fun tbl e => captureEventClosingLines now s.archive tbl e.eventID)
        s.closing
      exact foldl_captureAll_mem_of_mem now s.archive _ s.closing r hr
    obtain ⟨x, hx, hxid⟩ := foldl_captureAll_mem now s.archive
      (closingCandidates now s.events s.closing) s.closing e he0 hne
    refine hnotin (List.any_eq_true.mpr ⟨x, ?_, by simp [hxid]⟩)
    show x ∈ (closingCandidates now s.events s.closing).foldl
      (fun tbl e => captureEventClosingLines now s.archive tbl e.eventID)
      s.closing
    exact hx
  have hfold : (closingCandidates now s.events
        (captureClosingLines now s).closing).foldl
      (fun tbl e => captureEventClosingLines now s.archive tbl e.eventID)
      (captureClosingLines now s).closing =
      (captureClosingLines now s).closing :=
    foldl_captureAll_of_all_nil now s.archive _ _ key
  show CaptureState.mk s.events s.archive
      ((closingCandidates now s.events
          (captureClosingLines now s).closing).foldl
        (fun tbl e => captureEventClosingLines now s.archive tbl e.eventID)
        (captureClosingLines now s).closing) =
    captureClosingLines now s
  rw [hfold]
  rfl
